import Mathlib

/-!
Shallow embedding of the `ordered_set` package (StableSet / OrderedSet) and
proofs about the claims of its specification.

Elements are modelled as natural numbers.  A Python `dict` used as an ordered
set (`StableSet._map`, values all `None`) is modelled as its key list; the
`OrderedSet` position map (`self._map : key -> position`) is modelled as an
association list `List (Nat × Nat)` in dict iteration order.  Fallible
operations return `Except PyErr`.
-/

namespace OrderedSetSpec

/-- The Python exception kinds raised by the embedded operations. -/
inductive PyErr where
  | keyError
  | indexError
  | valueError
  | stopIteration
  deriving DecidableEq, Repr

/-- Pickle state produced by `__getstate__`: either the distinguished empty
marker `(None,)` or the list of elements. -/
inductive PickleState where
  | emptyMarker
  | elems (l : List Nat)
  deriving DecidableEq, Repr

/-- Insertion of a key into a Python dict (modelled by its key list):
an existing key keeps its position, a new key is appended at the end. -/
def insKey (l : List Nat) (a : Nat) : List Nat :=
  if a ∈ l then l else l ++ [a]

/-- Embeds `dict.fromkeys`: insert the keys one by one into an empty dict,
collapsing duplicates to their first occurrence. -/
def fromkeys (l : List Nat) : List Nat :=
  l.foldl insKey []

@[simp] theorem mem_insKey {l : List Nat} {a x : Nat} :
    x ∈ insKey l a ↔ x ∈ l ∨ x = a := by
  unfold insKey
  split <;> rename_i h
  · constructor
    · exact fun hx => Or.inl hx
    · rintro (hx | rfl) <;> assumption
  · simp

theorem insKey_nodup {l : List Nat} (h : l.Nodup) (a : Nat) :
    (insKey l a).Nodup := by
  unfold insKey
  split <;> rename_i ha
  · exact h
  · simpa [List.nodup_append] using ⟨h, fun hx => ha hx⟩

theorem mem_foldl_insKey (l : List Nat) (s : List Nat) (x : Nat) :
    x ∈ l.foldl insKey s ↔ x ∈ s ∨ x ∈ l := by
  induction l generalizing s with
  | nil => simp
  | cons a t ih =>
    simp only [List.foldl_cons, ih, mem_insKey, List.mem_cons]
    tauto

theorem foldl_insKey_nodup (l : List Nat) {s : List Nat} (h : s.Nodup) :
    (l.foldl insKey s).Nodup := by
  induction l generalizing s with
  | nil => exact h
  | cons a t ih => exact ih (insKey_nodup h a)

theorem fromkeys_nodup (l : List Nat) : (fromkeys l).Nodup :=
  foldl_insKey_nodup l List.nodup_nil

@[simp] theorem mem_fromkeys {l : List Nat} {x : Nat} :
    x ∈ fromkeys l ↔ x ∈ l := by
  unfold fromkeys
  rw [mem_foldl_insKey]
  simp

theorem foldl_insKey_eq_append {l : List Nat} (s : List Nat)
    (h : l.Nodup) (hd : ∀ x ∈ l, x ∉ s) : l.foldl insKey s = s ++ l := by
  induction l generalizing s with
  | nil => simp
  | cons a t ih =>
    have ha : a ∉ s := hd a (List.mem_cons_self a t)
    have h1 : insKey s a = s ++ [a] := by simp [insKey, ha]
    have h2 : t.foldl insKey (s ++ [a]) = (s ++ [a]) ++ t := by
      refine ih (s ++ [a]) (List.Nodup.of_cons h) ?_
      intro x hx
      simp only [List.mem_append, List.mem_singleton]
      rintro (hxs | rfl)
      · exact hd x (List.mem_cons_of_mem a hx) hxs
      · exact (List.nodup_cons.mp h).1 hx
    simp only [List.foldl_cons, h1, h2, List.append_assoc, List.singleton_append]

theorem fromkeys_eq_self {l : List Nat} (h : l.Nodup) : fromkeys l = l := by
  unfold fromkeys
  simpa using foldl_insKey_eq_append [] h (by simp)

theorem foldl_insKey_insKey (s acc : List Nat) (a : Nat) :
    (insKey acc a).foldl insKey s = insKey (acc.foldl insKey s) a := by
  by_cases ha : a ∈ acc
  · have h1 : insKey acc a = acc := if_pos ha
    have h2 : a ∈ acc.foldl insKey s := (mem_foldl_insKey acc s a).mpr (Or.inr ha)
    rw [h1, insKey, if_pos h2]
  · have h1 : insKey acc a = acc ++ [a] := if_neg ha
    rw [h1, List.foldl_append]
    rfl

theorem foldl_insKey_foldl (l : List Nat) (acc s : List Nat) :
    (l.foldl insKey acc).foldl insKey s = l.foldl insKey (acc.foldl insKey s) := by
  induction l generalizing acc with
  | nil => simp
  | cons a t ih =>
    simp only [List.foldl_cons, ih (insKey acc a), foldl_insKey_insKey]

theorem foldl_insKey_fromkeys (l s : List Nat) :
    (fromkeys l).foldl insKey s = l.foldl insKey s := by
  unfold fromkeys
  rw [foldl_insKey_foldl]
  simp

/-! ### StableSet operations

A `StableSet` is its backing dict `self._map` (values all `None`), modelled as
the key list. -/

namespace StableSet

/-- Embeds `StableSet.__init__`: `self._map = dict.fromkeys(initial) if initial else {}`.
`none` models the absent argument; an empty list is falsy in Python. -/
def init (initial : Option (List Nat)) : List Nat :=
  match initial with
  | none => []
  | some l => if l.isEmpty then [] else fromkeys l

/-- Embeds `StableSet.copy`: `self.__class__(self)`. -/
def copy (s : List Nat) : List Nat :=
  init (some s)

/-- Embeds `StableSet.add`: `self._map[key] = None; return len(self._map) - 1`. -/
def add (s : List Nat) (key : Nat) : Nat × List Nat :=
  ((insKey s key).length - 1, insKey s key)

/-- Embeds `StableSet.update`: builds `dict.fromkeys(sequence)` and merges it into
`self._map` with `dict.update` (existing keys keep their position, new keys are
appended in order); returns `len(self._map) - 1`.  A non-iterable argument
(modelled by `none`) makes `dict.fromkeys` raise `TypeError`, which the method
converts to `ValueError`. -/
def update (s : List Nat) (sequence : Option (List Nat)) :
    Except PyErr (Nat × List Nat) :=
  match sequence with
  | none => Except.error PyErr.valueError
  | some l =>
    let s2 := (fromkeys l).foldl insKey s
    Except.ok (s2.length - 1, s2)

/-- The enumeration loop of `StableSet.index`: scan the keys, return the
position of the first key equal to the argument, `KeyError` if absent. -/
def indexAux (key : Nat) : List Nat → Nat → Except PyErr Nat
  | [], _ => Except.error PyErr.keyError
  | a :: t, n => if a = key then Except.ok n else indexAux key t (n + 1)

/-- Embeds `StableSet.index` for a scalar key. -/
def index (s : List Nat) (key : Nat) : Except PyErr Nat :=
  indexAux key s 0

/-- Embeds `StableSet.pop(index=-1)`.  On an empty set: `KeyError`.  `index == -1`
uses `dict.popitem` (removes the last key).  `index == 0` takes the first key.
Otherwise the element is obtained with `next(islice(keys, index, index + 1))`:
a negative index makes `islice` raise `ValueError`, an index past the end
exhausts the slice so the bare `next` raises `StopIteration` (the code does not
convert it to `IndexError`).  The chosen key is then removed from the dict. -/
def pop (s : List Nat) (index : Int) : Except PyErr (Nat × List Nat) :=
  if s.isEmpty then Except.error PyErr.keyError
  else if index = -1 then
    match s.getLast? with
    | some e => Except.ok (e, s.dropLast)
    | none => Except.error PyErr.keyError
  else if index = 0 then
    match s.head? with
    | some e => Except.ok (e, s.erase e)
    | none => Except.error PyErr.keyError
  else if index < 0 then Except.error PyErr.valueError
  else
    match s.get? index.toNat with
    | none => Except.error PyErr.stopIteration
    | some e => Except.ok (e, s.erase e)

/-- The scan loop of `StableSet.isorderedsubset` over `other`, with `i` the
two-pointer position into `self` and `n = len(self)`; `self[i]` raises
`IndexError` when `i` is out of range. -/
def isorderedsubsetAux (s : List Nat) (n : Nat) :
    List Nat → Nat → Except PyErr Bool
  | [], _ => Except.ok false
  | b :: t, i =>
    match s.get? i with
    | none => Except.error PyErr.indexError
    | some a =>
      if b = a then
        if i + 1 = n then Except.ok true else isorderedsubsetAux s n t (i + 1)
      else isorderedsubsetAux s n t i

/-- Embeds `StableSet.isorderedsubset`: early `False` when `len(self) > len(other)`,
otherwise the two-pointer scan. -/
def isorderedsubset (s other : List Nat) : Except PyErr Bool :=
  if other.length < s.length then Except.ok false
  else isorderedsubsetAux s s.length other 0

/-- Embeds `StableSet.union(*sets)`: concatenate `self` with every argument and build
a new set from the chain. -/
def union (s : List Nat) (sets : List (List Nat)) : List Nat :=
  fromkeys (s ++ sets.flatten)

/-- Embeds `StableSet.difference(*sets)`: keep the items of `self` that are in none
of the arguments (when there is at least one argument). -/
def difference (s : List Nat) (sets : List (List Nat)) : List Nat :=
  if sets.isEmpty then fromkeys s
  else fromkeys (s.filter (fun x => decide (∀ t ∈ sets, x ∉ t)))

/-- Embeds `StableSet.symmetric_difference`:
`cls(self).difference(other)` unioned with `cls(other).difference(self)`. -/
def symmetric_difference (s other : List Nat) : List Nat :=
  union (difference (fromkeys s) [other]) [difference (fromkeys other) [s]]

/-- Embeds `StableSet.__getstate__`: the empty set pickles to the truthy marker
`(None,)`, any other set to `list(self)`. -/
def getstate (s : List Nat) : PickleState :=
  if s.length = 0 then PickleState.emptyMarker else PickleState.elems s

/-- Embeds `StableSet.__setstate__`: the marker restores `__init__([])`, a list
restores `__init__(state)`. -/
def setstate : PickleState → List Nat
  | PickleState.emptyMarker => init (some [])
  | PickleState.elems l => init (some l)

end StableSet

/-! ### OrderedSet: a dense item list plus a key-to-position dict -/

/-- The state of an `OrderedSet`: `self._items` and `self._map`, the latter a
Python dict from key to position, modelled as an association list in dict
iteration order. -/
structure OSet where
  items : List Nat
  map : List (Nat × Nat)
  deriving DecidableEq, Repr

/-- Lookup in a Python dict modelled as an association list: the value of the
first entry with the given key. -/
def dlookup (k : Nat) : List (Nat × Nat) → Option Nat
  | [] => none
  | (a, v) :: t => if k = a then some v else dlookup k t

/-- Embeds `del d[k]` on a Python dict modelled as an association list: drop the
entries with that key, keeping the order of the others. -/
def derase (k : Nat) : List (Nat × Nat) → List (Nat × Nat)
  | [] => []
  | (a, v) :: t => if a = k then derase k t else (a, v) :: derase k t

/-- The in-place repair loop of `OrderedSet.discard`:
`for k, v in self._map.items(): if v >= i: self._map[k] = v - 1`. -/
def dshift (i : Nat) : List (Nat × Nat) → List (Nat × Nat)
  | [] => []
  | (a, v) :: t => (a, if i ≤ v then v - 1 else v) :: dshift i t

/-- Position list of a list of keys, starting at position `n`. -/
def posPairs : List Nat → Nat → List (Nat × Nat)
  | [], _ => []
  | a :: t, n => (a, n) :: posPairs t (n + 1)

/-- The canonical position map of an item list. -/
def enumPairs (l : List Nat) : List (Nat × Nat) :=
  posPairs l 0

namespace OrderedSet

/-- Embeds `OrderedSet.add`: a new key is appended to `self._items` and recorded in
`self._map` at position `len(self._items)`; the position of the key (old or
new) is returned. -/
def add (st : OSet) (key : Nat) : Nat × OSet :=
  match dlookup key st.map with
  | some v => (v, st)
  | none =>
    (st.items.length, ⟨st.items ++ [key], st.map ++ [(key, st.items.length)]⟩)

/-- Embeds `OrderedSet.discard`: if the key is present at recorded position `i`,
delete `self._items[i]`, delete the dict entry, and decrement every recorded
position `v` with `v >= i`; otherwise do nothing. -/
def discard (st : OSet) (key : Nat) : OSet :=
  match dlookup key st.map with
  | none => st
  | some i =>
    { items := st.items.eraseIdx i
      map := dshift i (derase key st.map) }

/-- Embeds `OrderedSet.update`: `item_index = 0`, then `item_index = self.add(item)`
for each item in order; returns the last `item_index`.  A non-iterable
argument (modelled by `none`) raises `TypeError` at the `for`, which the
method converts to `ValueError`. -/
def update (st : OSet) (sequence : Option (List Nat)) :
    Except PyErr (Nat × OSet) :=
  match sequence with
  | none => Except.error PyErr.valueError
  | some l => Except.ok (l.foldl (fun p x => add p.2 x) (0, st))

/-- Embeds `OrderedSet.index` for a scalar key: `self._map[key]`, `KeyError` if
absent. -/
def index (st : OSet) (key : Nat) : Except PyErr Nat :=
  match dlookup key st.map with
  | some v => Except.ok v
  | none => Except.error PyErr.keyError

/-- Resolution of a Python list index of a list of length `n`: a negative
index counts from the end; out of range yields `none`. -/
def pyIdx (n : Nat) (i : Int) : Option Nat :=
  let j : Int := if i < 0 then i + n else i
  if 0 ≤ j ∧ j < (n : Int) then some j.toNat else none

/-- Embeds `OrderedSet.pop(index=-1)`: `KeyError` on an empty set, otherwise
`elem = self._items[index]` (`IndexError` if out of range), then
`del self._items[index]` and `del self._map[elem]` — with no repair of the
remaining recorded positions. -/
def pop (st : OSet) (index : Int) : Except PyErr (Nat × OSet) :=
  if st.items.isEmpty then Except.error PyErr.keyError
  else
    match pyIdx st.items.length index with
    | none => Except.error PyErr.indexError
    | some j =>
      match st.items.get? j with
      | none => Except.error PyErr.indexError
      | some elem =>
        match dlookup elem st.map with
        | none => Except.error PyErr.keyError
        | some _ =>
          Except.ok (elem, ⟨st.items.eraseIdx j, derase elem st.map⟩)

/-- Embeds `OrderedSet.popitem(last=True)`: identical to `pop` at index `-1`
(LIFO) or `0` (FIFO). -/
def popitem (st : OSet) (last : Bool) : Except PyErr (Nat × OSet) :=
  pop st (if last then -1 else 0)

/-- Embeds `list(self)` for an `OrderedSet`: iteration is inherited from `StableSet`
and runs over the keys of `self._map`. -/
def osList (st : OSet) : List Nat :=
  st.map.map Prod.fst

/-- Embeds `OrderedSet.__init__`: start empty and `self |= initial`, which adds the
elements of `initial` one by one. -/
def init (initial : Option (List Nat)) : OSet :=
  match initial with
  | none => ⟨[], []⟩
  | some l => l.foldl (fun st x => (add st x).2) ⟨[], []⟩

/-- Embeds `OrderedSet.copy` (inherited): `self.__class__(self)`, iterating `self`. -/
def copy (st : OSet) : OSet :=
  init (some (osList st))

/-- Embeds `__getstate__` (inherited): marker `(None,)` when `len(self) == 0`
(`len` counts `self._map`), else `list(self)`. -/
def getstate (st : OSet) : PickleState :=
  if st.map.length = 0 then PickleState.emptyMarker
  else PickleState.elems (osList st)

/-- Embeds `__setstate__` (inherited): re-run `__init__`. -/
def setstate : PickleState → OSet
  | PickleState.emptyMarker => init (some [])
  | PickleState.elems l => init (some l)

end OrderedSet

/-- The documented `OrderedSet` invariant: the dict has no duplicate keys and
`position_map[x] == i` if and only if `sequence[i] == x`. -/
def OSValid (st : OSet) : Prop :=
  (st.map.map Prod.fst).Nodup ∧
    ∀ k i, dlookup k st.map = some i ↔ st.items.get? i = some k

/-- The canonical shape of a reachable `OrderedSet` state: distinct items and
the position map is exactly the enumeration of the item list.  This is
decidable and implies `OSValid`. -/
def OSCanonical (st : OSet) : Prop :=
  st.items.Nodup ∧ st.map = enumPairs st.items

instance (st : OSet) : Decidable (OSCanonical st) := by
  unfold OSCanonical
  infer_instance

/-- An `add`/`remove` instruction for the invariant claim. -/
inductive Op where
  | add (k : Nat)
  | remove (k : Nat)
  deriving DecidableEq, Repr

/-- Run one instruction on an `OrderedSet` state. -/
def applyOp (st : OSet) : Op → OSet
  | Op.add k => (OrderedSet.add st k).2
  | Op.remove k => OrderedSet.discard st k

/-- Run a list of instructions on an `OrderedSet` state. -/
def applyOps (st : OSet) (ops : List Op) : OSet :=
  ops.foldl applyOp st

/-! ### Dict (association list) lemmas -/

theorem dlookup_append_left {k : Nat} {m1 : List (Nat × Nat)} {v : Nat}
    (m2 : List (Nat × Nat)) (h : dlookup k m1 = some v) :
    dlookup k (m1 ++ m2) = some v := by
  induction m1 with
  | nil => simp [dlookup] at h
  | cons kv t ih =>
    obtain ⟨a, w⟩ := kv
    by_cases hk : k = a
    · simp only [dlookup, if_pos hk] at h ⊢
      exact h
    · simp only [dlookup, if_neg hk] at h ⊢
      exact ih h

theorem dlookup_append_right {k : Nat} {m1 : List (Nat × Nat)}
    (m2 : List (Nat × Nat)) (h : dlookup k m1 = none) :
    dlookup k (m1 ++ m2) = dlookup k m2 := by
  induction m1 with
  | nil => simp
  | cons kv t ih =>
    obtain ⟨a, w⟩ := kv
    by_cases hk : k = a
    · simp [dlookup, if_pos hk] at h
    · rw [List.cons_append]
      simp only [dlookup, if_neg hk] at h ⊢
      exact ih h

theorem dlookup_eq_none_iff {k : Nat} {m : List (Nat × Nat)} :
    dlookup k m = none ↔ k ∉ m.map Prod.fst := by
  induction m with
  | nil => simp [dlookup]
  | cons kv t ih =>
    obtain ⟨a, w⟩ := kv
    by_cases hk : k = a
    · subst hk
      simp [dlookup]
    · simp [dlookup, if_neg hk, ih, hk]

theorem dlookup_derase_ne {k a : Nat} (h : k ≠ a) (m : List (Nat × Nat)) :
    dlookup k (derase a m) = dlookup k m := by
  induction m with
  | nil => simp [derase]
  | cons kv t ih =>
    obtain ⟨b, w⟩ := kv
    by_cases hb : b = a
    · subst hb
      have hk : ¬ (k = b) := h
      rw [derase, if_pos rfl, ih, dlookup, if_neg hk]
    · rw [derase, if_neg hb]
      by_cases hk : k = b
      · simp [dlookup, if_pos hk]
      · simp only [dlookup, if_neg hk]
        exact ih

theorem dlookup_derase_self (a : Nat) (m : List (Nat × Nat)) :
    dlookup a (derase a m) = none := by
  induction m with
  | nil => simp [derase, dlookup]
  | cons kv t ih =>
    obtain ⟨b, w⟩ := kv
    by_cases hb : b = a
    · subst hb
      rw [derase, if_pos rfl]
      exact ih
    · have : ¬ (a = b) := fun hab => hb hab.symm
      rw [derase, if_neg hb, dlookup, if_neg this]
      exact ih

theorem dlookup_dshift (k i : Nat) (m : List (Nat × Nat)) :
    dlookup k (dshift i m) =
      (dlookup k m).map (fun v => if i ≤ v then v - 1 else v) := by
  induction m with
  | nil => simp [dshift, dlookup]
  | cons kv t ih =>
    obtain ⟨a, w⟩ := kv
    by_cases hk : k = a
    · simp [dshift, dlookup, if_pos hk]
    · simp only [dshift, dlookup, if_neg hk]
      exact ih

theorem keys_derase_sublist (a : Nat) (m : List (Nat × Nat)) :
    List.Sublist ((derase a m).map Prod.fst) (m.map Prod.fst) := by
  induction m with
  | nil => simp [derase]
  | cons kv t ih =>
    obtain ⟨b, w⟩ := kv
    by_cases hb : b = a
    · rw [derase, if_pos hb]
      exact ih.trans (List.sublist_cons_self _ _)
    · rw [derase, if_neg hb, List.map_cons, List.map_cons]
      exact ih.cons₂ b

theorem keys_dshift (i : Nat) (m : List (Nat × Nat)) :
    (dshift i m).map Prod.fst = m.map Prod.fst := by
  induction m with
  | nil => rfl
  | cons kv t ih =>
    obtain ⟨a, w⟩ := kv
    simp only [dshift, List.map_cons, ih]

theorem get?_eraseIdx {l : List Nat} {i : Nat} (h : i < l.length) (j : Nat) :
    (l.eraseIdx i).get? j = if j < i then l.get? j else l.get? (j + 1) := by
  induction l generalizing i j with
  | nil => simp at h
  | cons a t ih =>
    cases i with
    | zero => simp [List.eraseIdx]
    | succ i' =>
      cases j with
      | zero => simp [List.eraseIdx]
      | succ j' =>
        have h' : i' < t.length := by simpa using h
        have := ih h' j'
        simp only [List.eraseIdx, List.get?_cons_succ, this,
          Nat.succ_lt_succ_iff]

/-! ### Preservation of the position-map invariant -/

theorem valid_idx_lt {st : OSet} {k i : Nat} (h : OSValid st)
    (hk : dlookup k st.map = some i) : i < st.items.length := by
  have hget := (h.2 k i).mp hk
  by_contra hle
  push_neg at hle
  rw [List.get?_eq_none.mpr hle] at hget
  exact Option.noConfusion hget

theorem valid_not_mem_iff {st : OSet} (h : OSValid st) (k : Nat) :
    dlookup k st.map = none ↔ k ∉ st.items := by
  constructor
  · intro hnone hmem
    obtain ⟨n, hn⟩ := List.mem_iff_get?.mp hmem
    have := (h.2 k n).mpr hn
    rw [hnone] at this
    exact Option.noConfusion this
  · intro hnm
    cases hdl : dlookup k st.map with
    | none => rfl
    | some i =>
      exact absurd (List.get?_mem ((h.2 k i).mp hdl)) hnm

theorem add_items {st : OSet} {k : Nat} (h : OSValid st) :
    ((OrderedSet.add st k).2).items = insKey st.items k := by
  unfold OrderedSet.add
  cases hdl : dlookup k st.map with
  | some v =>
    have hmem : k ∈ st.items := List.get?_mem ((h.2 k v).mp hdl)
    simp [insKey, hmem]
  | none =>
    have hnm : k ∉ st.items := (valid_not_mem_iff h k).mp hdl
    simp [insKey, hnm]

theorem OSValid_add {st : OSet} (h : OSValid st) (k : Nat) :
    OSValid ((OrderedSet.add st k).2) := by
  unfold OrderedSet.add
  cases hdl : dlookup k st.map with
  | some v => simpa using h
  | none =>
    have hkeys : k ∉ st.map.map Prod.fst := dlookup_eq_none_iff.mp hdl
    constructor
    · simp only [List.map_append, List.map_cons, List.map_nil]
      rw [List.nodup_append]
      exact ⟨h.1, List.nodup_singleton k,
        by intro x hx hx'; rw [List.mem_singleton] at hx'; subst hx'; exact hkeys hx⟩
    · intro k' i
      by_cases hdl' : ∃ v, dlookup k' st.map = some v
      · obtain ⟨v, hv⟩ := hdl'
        have hvlt : v < st.items.length := valid_idx_lt h hv
        rw [dlookup_append_left _ hv]
        constructor
        · rintro hvi
          have : v = i := by injection hvi
          subst this
          rw [List.get?_append hvlt]
          exact (h.2 k' v).mp hv
        · intro hget
          by_cases hi : i < st.items.length
          · rw [List.get?_append hi] at hget
            have := (h.2 k' i).mpr hget
            rw [hv] at this
            injection this with hvi
            rw [hvi]
          · push_neg at hi
            rw [List.get?_append_right hi] at hget
            rcases Nat.lt_or_ge (i - st.items.length) 1 with h1 | h1
            · interval_cases hdiff : i - st.items.length
              · simp only [List.get?] at hget
                injection hget with hk'
                subst hk'
                rw [hv] at hdl
                exact Option.noConfusion hdl
            · rw [List.get?_eq_none.mpr (by simpa using h1)] at hget
              exact Option.noConfusion hget
      · push_neg at hdl'
        have hnone : dlookup k' st.map = none := by
          cases hx : dlookup k' st.map with
          | none => rfl
          | some v => exact absurd hx (hdl' v)
        rw [dlookup_append_right _ hnone]
        by_cases hk' : k' = k
        · subst hk'
          simp only [dlookup, if_pos rfl]
          constructor
          · rintro hni
            have : st.items.length = i := by injection hni
            subst this
            exact List.get?_concat_length st.items k'
          · intro hget
            by_cases hi : i < st.items.length
            · rw [List.get?_append hi] at hget
              have := (h.2 k' i).mpr hget
              rw [hnone] at this
              exact Option.noConfusion this
            · push_neg at hi
              rw [List.get?_append_right hi] at hget
              rcases Nat.lt_or_ge (i - st.items.length) 1 with h1 | h1
              · have : i - st.items.length = 0 := Nat.lt_one_iff.mp h1
                have : i = st.items.length := Nat.le_antisymm
                  (by omega) hi
                rw [this]
                simp
              · rw [List.get?_eq_none.mpr (by simpa using h1)] at hget
                exact Option.noConfusion hget
        · simp only [dlookup, if_neg hk']
          constructor
          · intro hfalse
            exact Option.noConfusion hfalse
          · intro hget
            by_cases hi : i < st.items.length
            · rw [List.get?_append hi] at hget
              have := (h.2 k' i).mpr hget
              rw [hnone] at this
              exact Option.noConfusion this
            · push_neg at hi
              rw [List.get?_append_right hi] at hget
              rcases Nat.lt_or_ge (i - st.items.length) 1 with h1 | h1
              · have h0 : i - st.items.length = 0 := Nat.lt_one_iff.mp h1
                rw [h0] at hget
                simp only [List.get?] at hget
                injection hget with hk'k
                exact absurd hk'k.symm hk'
              · rw [List.get?_eq_none.mpr (by simpa using h1)] at hget
                exact Option.noConfusion hget

theorem discard_of_none {st : OSet} {k : Nat}
    (hdl : dlookup k st.map = none) : OrderedSet.discard st k = st := by
  unfold OrderedSet.discard
  rw [hdl]

theorem discard_map_of_some {st : OSet} {k i : Nat}
    (hdl : dlookup k st.map = some i) :
    (OrderedSet.discard st k).map = dshift i (derase k st.map) := by
  unfold OrderedSet.discard
  rw [hdl]

theorem discard_items_of_some {st : OSet} {k i : Nat}
    (hdl : dlookup k st.map = some i) :
    (OrderedSet.discard st k).items = st.items.eraseIdx i := by
  unfold OrderedSet.discard
  rw [hdl]

theorem OSValid_discard {st : OSet} (h : OSValid st) (k : Nat) :
    OSValid (OrderedSet.discard st k) := by
  cases hdl : dlookup k st.map with
  | none => rw [discard_of_none hdl]; exact h
  | some i =>
    have hi : i < st.items.length := valid_idx_lt h hdl
    have hik : st.items.get? i = some k := (h.2 k i).mp hdl
    constructor
    · rw [discard_map_of_some hdl, keys_dshift]
      exact (keys_derase_sublist k st.map).nodup h.1
    · intro k' j
      rw [discard_map_of_some hdl, discard_items_of_some hdl,
        dlookup_dshift, get?_eraseIdx hi]
      by_cases hk' : k' = k
      · subst hk'
        rw [dlookup_derase_self]
        simp only [Option.map_none']
        constructor
        · intro hfalse; exact Option.noConfusion hfalse
        · intro hget
          split at hget
          · rename_i hji
            have := (h.2 k' j).mpr hget
            rw [hdl] at this
            injection this with hij
            omega
          · rename_i hji
            have := (h.2 k' (j + 1)).mpr hget
            rw [hdl] at this
            injection this with hij
            omega
      · rw [dlookup_derase_ne hk']
        cases hdl' : dlookup k' st.map with
        | none =>
          simp only [Option.map_none']
          constructor
          · intro hfalse; exact Option.noConfusion hfalse
          · intro hget
            split at hget
            · have := (h.2 k' j).mpr hget
              rw [hdl'] at this
              exact Option.noConfusion this
            · have := (h.2 k' (j + 1)).mpr hget
              rw [hdl'] at this
              exact Option.noConfusion this
        | some v =>
          have hvget : st.items.get? v = some k' := (h.2 k' v).mp hdl'
          have hvi : v ≠ i := by
            intro hvi
            subst hvi
            rw [hvget] at hik
            injection hik with hkk
            exact hk' hkk
          simp only [Option.map_some']
          constructor
          · rintro hgj
            have hgveq : (if i ≤ v then v - 1 else v) = j := by injection hgj
            by_cases hiv : i ≤ v
            · have hvgt : i < v := lt_of_le_of_ne hiv (Ne.symm hvi)
              rw [if_pos hiv] at hgveq
              subst hgveq
              rw [if_neg (by omega)]
              have : v - 1 + 1 = v := by omega
              rw [this]
              exact hvget
            · rw [if_neg hiv] at hgveq
              subst hgveq
              rw [if_pos (by omega)]
              exact hvget
          · intro hget
            split at hget
            · rename_i hji
              have := (h.2 k' j).mpr hget
              rw [hdl'] at this
              injection this with hvj
              subst hvj
              rw [if_neg (by omega)]
            · rename_i hji
              have := (h.2 k' (j + 1)).mpr hget
              rw [hdl'] at this
              injection this with hvj
              subst hvj
              rw [if_pos (by omega)]
              simp

theorem OSValid_applyOp {st : OSet} (h : OSValid st) (op : Op) :
    OSValid (applyOp st op) := by
  cases op with
  | add k => exact OSValid_add h k
  | remove k => exact OSValid_discard h k

theorem OSValid_applyOps {st : OSet} (h : OSValid st) (ops : List Op) :
    OSValid (applyOps st ops) := by
  induction ops generalizing st with
  | nil => exact h
  | cons op t ih => exact ih (OSValid_applyOp h op)

/-! ### Canonical states: the position map is the enumeration of the items -/

theorem keys_posPairs (l : List Nat) (n : Nat) :
    (posPairs l n).map Prod.fst = l := by
  induction l generalizing n with
  | nil => rfl
  | cons a t ih => simp [posPairs, ih]

theorem dlookup_posPairs {l : List Nat} (h : l.Nodup) (n k i : Nat) :
    dlookup k (posPairs l n) = some i ↔ n ≤ i ∧ l.get? (i - n) = some k := by
  induction l generalizing n with
  | nil => simp [posPairs, dlookup]
  | cons a t ih =>
    rw [posPairs]
    by_cases hk : k = a
    · subst hk
      rw [dlookup, if_pos rfl]
      constructor
      · rintro hni
        have hni' : n = i := by injection hni
        subst hni'
        simp
      · rintro ⟨hni, hget⟩
        cases hd : i - n with
        | zero =>
          have : i = n := by omega
          rw [this]
        | succ j =>
          rw [hd, List.get?_cons_succ] at hget
          exact absurd (List.get?_mem hget) (List.nodup_cons.mp h).1
    · rw [dlookup, if_neg hk, ih (List.Nodup.of_cons h) (n + 1)]
      constructor
      · rintro ⟨hni, hget⟩
        refine ⟨by omega, ?_⟩
        have : i - n = (i - (n + 1)) + 1 := by omega
        rw [this, List.get?_cons_succ]
        exact hget
      · rintro ⟨hni, hget⟩
        cases hd : i - n with
        | zero =>
          rw [hd] at hget
          simp only [List.get?_cons_zero] at hget
          injection hget with hak
          exact absurd hak.symm hk
        | succ j =>
          rw [hd, List.get?_cons_succ] at hget
          refine ⟨by omega, ?_⟩
          have : i - (n + 1) = j := by omega
          rw [this]
          exact hget

theorem canonical_valid {st : OSet} (h : OSCanonical st) : OSValid st := by
  obtain ⟨hnd, hmap⟩ := h
  constructor
  · rw [hmap]
    unfold enumPairs
    rw [keys_posPairs]
    exact hnd
  · intro k i
    rw [hmap]
    unfold enumPairs
    rw [dlookup_posPairs hnd 0 k i]
    simp

theorem posPairs_append (l : List Nat) (x n : Nat) :
    posPairs (l ++ [x]) n = posPairs l n ++ [(x, n + l.length)] := by
  induction l generalizing n with
  | nil => simp [posPairs]
  | cons a t ih =>
    rw [List.cons_append, posPairs, posPairs, ih]
    simp only [List.length_cons]
    have : n + 1 + t.length = n + (t.length + 1) := by omega
    rw [this, List.cons_append]

theorem canonical_add {st : OSet} (h : OSCanonical st) (k : Nat) :
    OSCanonical ((OrderedSet.add st k).2) ∧
      ((OrderedSet.add st k).2).items = insKey st.items k := by
  have hv : OSValid st := canonical_valid h
  unfold OrderedSet.add
  cases hdl : dlookup k st.map with
  | some v =>
    have hmem : k ∈ st.items := List.get?_mem ((hv.2 k v).mp hdl)
    simpa [insKey, hmem] using h
  | none =>
    have hnm : k ∉ st.items := (valid_not_mem_iff hv k).mp hdl
    refine ⟨⟨?_, ?_⟩, by simp [insKey, hnm]⟩
    · simp only
      rw [List.nodup_append]
      exact ⟨h.1, List.nodup_singleton k,
        by intro x hx hx'; rw [List.mem_singleton] at hx'; subst hx'; exact hnm hx⟩
    · simp only [h.2]
      unfold enumPairs
      rw [posPairs_append]
      simp

theorem foldl_add_canonical (l : List Nat) (st : OSet) (h : OSCanonical st) :
    OSCanonical (l.foldl (fun st x => (OrderedSet.add st x).2) st) ∧
      (l.foldl (fun st x => (OrderedSet.add st x).2) st).items =
        l.foldl insKey st.items := by
  induction l generalizing st with
  | nil => exact ⟨h, rfl⟩
  | cons a t ih =>
    obtain ⟨h1, h2⟩ := canonical_add h a
    obtain ⟨h3, h4⟩ := ih _ h1
    exact ⟨h3, by rw [List.foldl_cons, List.foldl_cons, h4, h2]⟩

theorem init_canonical (l : List Nat) :
    OSCanonical (OrderedSet.init (some l)) ∧
      (OrderedSet.init (some l)).items = fromkeys l := by
  unfold OrderedSet.init fromkeys
  exact foldl_add_canonical l ⟨[], []⟩ ⟨List.nodup_nil, rfl⟩

theorem add_lookup_self (st : OSet) (k : Nat) :
    dlookup k ((OrderedSet.add st k).2).map = some ((OrderedSet.add st k).1) := by
  unfold OrderedSet.add
  cases hdl : dlookup k st.map with
  | some v => simpa using hdl
  | none =>
    simp only
    rw [dlookup_append_right _ hdl, dlookup, if_pos rfl]

theorem update_snd_eq (l : List Nat) (st : OSet) (i0 : Nat) :
    (l.foldl (fun p x => OrderedSet.add p.2 x) (i0, st)).2 =
      l.foldl (fun st x => (OrderedSet.add st x).2) st := by
  induction l generalizing st i0 with
  | nil => rfl
  | cons a t ih =>
    rw [List.foldl_cons, List.foldl_cons]
    have : OrderedSet.add st a =
        ((OrderedSet.add st a).1, (OrderedSet.add st a).2) := rfl
    rw [this, ih]

theorem update_fst_last (l : List Nat) (hl : l ≠ []) (st : OSet) (i0 : Nat) :
    dlookup (l.getLast hl)
        ((l.foldl (fun p x => OrderedSet.add p.2 x) (i0, st)).2).map =
      some ((l.foldl (fun p x => OrderedSet.add p.2 x) (i0, st)).1) := by
  induction l generalizing st i0 with
  | nil => exact absurd rfl hl
  | cons a t ih =>
    cases t with
    | nil =>
      rw [List.foldl_cons, List.foldl_nil]
      exact add_lookup_self st a
    | cons b u =>
      rw [List.getLast_cons (by simp), List.foldl_cons]
      have : OrderedSet.add st a =
          ((OrderedSet.add st a).1, (OrderedSet.add st a).2) := rfl
      rw [this]
      exact ih (by simp) _ _

theorem OSValid_foldl_add (l : List Nat) {st : OSet} (h : OSValid st) :
    OSValid (l.foldl (fun st x => (OrderedSet.add st x).2) st) := by
  induction l generalizing st with
  | nil => exact h
  | cons a t ih => exact ih (OSValid_add h a)

theorem foldl_add_items (l : List Nat) {st : OSet} (h : OSValid st) :
    (l.foldl (fun st x => (OrderedSet.add st x).2) st).items =
      l.foldl insKey st.items := by
  induction l generalizing st with
  | nil => rfl
  | cons a t ih =>
    rw [List.foldl_cons, List.foldl_cons, ih (OSValid_add h a), add_items h]

/-! ### Greedy subsequence test: correctness of the two-pointer scan -/

/-- Pure greedy subsequence test matching the two-pointer loop of
`isorderedsubset` on its remaining input. -/
def subseqb : List Nat → List Nat → Bool
  | [], _ => true
  | _ :: _, [] => false
  | a :: s, b :: t => if b = a then subseqb s t else subseqb (a :: s) t

theorem subseqb_iff_sublist (s t : List Nat) :
    subseqb s t = true ↔ List.Sublist s t := by
  induction t generalizing s with
  | nil =>
    cases s with
    | nil => simp [subseqb]
    | cons a s' => simp [subseqb, List.sublist_nil]
  | cons b t' ih =>
    cases s with
    | nil => simp [subseqb, List.nil_sublist]
    | cons a s' =>
      by_cases hb : b = a
      · subst hb
        rw [subseqb, if_pos rfl, ih s', List.cons_sublist_cons]
      · rw [subseqb, if_neg hb, ih (a :: s')]
        constructor
        · intro h
          exact h.cons b
        · intro h
          cases h with
          | cons _ h1 => exact h1
          | cons₂ => exact absurd rfl hb

theorem isorderedsubsetAux_ok {s : List Nat} (other : List Nat) {i : Nat}
    (hi : i < s.length) :
    StableSet.isorderedsubsetAux s s.length other i =
      Except.ok (subseqb (s.drop i) other) := by
  induction other generalizing i with
  | nil =>
    rw [List.drop_eq_getElem_cons hi]
    rfl
  | cons b t ih =>
    have hget : s.get? i = some s[i] := by
      rw [List.get?_eq_getElem?, List.getElem?_eq_getElem hi]
    rw [StableSet.isorderedsubsetAux, hget]
    simp only
    rw [List.drop_eq_getElem_cons hi, subseqb]
    by_cases hb : b = s[i]
    · rw [if_pos hb, if_pos hb]
      by_cases hlast : i + 1 = s.length
      · rw [if_pos hlast]
        have : s.drop (i + 1) = [] := List.drop_eq_nil_iff_le.mpr (by omega)
        rw [this]
        simp [subseqb]
      · rw [if_neg hlast]
        have hi1 : i + 1 < s.length := by omega
        exact ih hi1
    · rw [if_neg hb, if_neg hb]
      have := ih hi
      rw [this, List.drop_eq_getElem_cons hi]

theorem isorderedsubset_ok {s : List Nat} (hs : s ≠ []) (other : List Nat) :
    StableSet.isorderedsubset s other = Except.ok (subseqb s other) := by
  unfold StableSet.isorderedsubset
  by_cases hlen : other.length < s.length
  · rw [if_pos hlen]
    cases hsub : subseqb s other with
    | false => rfl
    | true =>
      have := ((subseqb_iff_sublist s other).mp hsub).length_le
      omega
  · rw [if_neg hlen]
    have h0 : 0 < s.length := List.length_pos.mpr hs
    have := isorderedsubsetAux_ok other h0
    rw [List.drop_zero] at this
    exact this

/-- The two-pointer scan decides the subsequence relation for every nonempty
`self`; this is the general positive content behind claim C5. -/
theorem isorderedsubset_iff_sublist {s : List Nat} (hs : s ≠ [])
    (other : List Nat) :
    StableSet.isorderedsubset s other = Except.ok true ↔
      List.Sublist s other := by
  rw [isorderedsubset_ok hs other]
  rw [← subseqb_iff_sublist s other]
  constructor
  · intro h
    injection h
  · intro h
    rw [h]

/-! ### Union, difference and symmetric difference -/

theorem union_pair (a b : List Nat) :
    StableSet.union a [b] = fromkeys (a ++ b) := by
  unfold StableSet.union
  rw [List.flatten_cons, List.flatten_nil, List.append_nil]

theorem fromkeys_append_fromkeys (l c : List Nat) :
    fromkeys (fromkeys l ++ c) = fromkeys (l ++ c) := by
  show (fromkeys l ++ c).foldl insKey [] = (l ++ c).foldl insKey []
  rw [List.foldl_append, List.foldl_append]
  have : (fromkeys l).foldl insKey [] = fromkeys (fromkeys l) := rfl
  rw [this, fromkeys_eq_self (fromkeys_nodup l)]
  rfl

theorem difference_single (s other : List Nat) :
    StableSet.difference s [other] =
      fromkeys (s.filter (fun x => decide (x ∉ other))) := by
  unfold StableSet.difference
  rw [if_neg (by simp)]
  congr 1
  refine List.filter_congr ?_
  intro x _
  simp

theorem symmetric_difference_eq {A B : List Nat} (hA : A.Nodup) (hB : B.Nodup) :
    StableSet.symmetric_difference A B =
      A.filter (fun x => decide (x ∉ B)) ++ B.filter (fun x => decide (x ∉ A)) := by
  unfold StableSet.symmetric_difference
  rw [fromkeys_eq_self hA, fromkeys_eq_self hB]
  rw [difference_single A B, difference_single B A]
  rw [fromkeys_eq_self (List.Nodup.filter _ hA),
    fromkeys_eq_self (List.Nodup.filter _ hB)]
  rw [union_pair]
  refine fromkeys_eq_self ?_
  rw [List.nodup_append]
  refine ⟨List.Nodup.filter _ hA, List.Nodup.filter _ hB, ?_⟩
  intro x hx1 hx2
  rw [List.mem_filter] at hx1 hx2
  rw [decide_eq_true_eq] at hx1 hx2
  exact hx1.2 hx2.1

/-! ## Claim theorems -/

/-- C1: the claim says that `add(x)` returns the current index of `x` for both
variants.  This theorem exhibits the failing input: on `StableSet([1, 2])`,
`add(1)` returns `len - 1 = 1` although the current index of `1` is `0`
(contradicting the method docstring); `OrderedSet.add` does return the
current index `0` at the same input. -/
theorem stableset_add_ignores_existing_index :
    StableSet.add [1, 2] 1 = (1, [1, 2]) ∧
    StableSet.index [1, 2] 1 = Except.ok 0 ∧
    OrderedSet.add ⟨[1, 2], [(1, 0), (2, 1)]⟩ 1 =
      (0, ⟨[1, 2], [(1, 0), (2, 1)]⟩) :=
  ⟨rfl, rfl, rfl⟩

/-- C2: the claim says that after `pop(i)` / `popitem(last)` the position-map
invariant is restored by the same decrement repair as `remove`.  The code
performs no repair: popping `OrderedSet([1, 2, 3])` at position `0` and
`popitem(last=False)` on `OrderedSet([1, 2])` leave states that violate
`OSValid` (an element keeps a stale recorded position). -/
theorem orderedset_pop_breaks_invariant :
    OrderedSet.pop ⟨[1, 2, 3], [(1, 0), (2, 1), (3, 2)]⟩ 0 =
      Except.ok (1, ⟨[2, 3], [(2, 1), (3, 2)]⟩) ∧
    OrderedSet.popitem ⟨[1, 2], [(1, 0), (2, 1)]⟩ false =
      Except.ok (1, ⟨[2], [(2, 1)]⟩) ∧
    ¬ OSValid ⟨[2, 3], [(2, 1), (3, 2)]⟩ ∧
    ¬ OSValid ⟨[2], [(2, 1)]⟩ := by
  refine ⟨rfl, rfl, ?_, ?_⟩
  · rintro ⟨-, hiff⟩
    have h := (hiff 2 1).mp (by decide)
    exact absurd h (by decide)
  · rintro ⟨-, hiff⟩
    have h := (hiff 2 1).mp (by decide)
    exact absurd h (by decide)

/-- C5: the claim says `isorderedsubset` returns true exactly on subsequences,
including every case where `self` is empty.  On an empty `self` the code
instead returns `False` (empty `other`) or raises `IndexError` (nonempty
`other`), although the empty list is a subsequence of anything; on nonempty
inputs the scan behaves as claimed (see `isorderedsubset_iff_sublist`). -/
theorem isorderedsubset_empty_self_bug :
    StableSet.isorderedsubset [] [] = Except.ok false ∧
    StableSet.isorderedsubset [] [1] = Except.error PyErr.indexError ∧
    List.Sublist ([] : List Nat) [] ∧
    List.Sublist ([] : List Nat) [1] ∧
    StableSet.isorderedsubset [1, 2, 3] [7, 1, 2, 3, 4] = Except.ok true ∧
    StableSet.isorderedsubset [1, 2, 3] [7, 1, 3, 2, 4] = Except.ok false ∧
    StableSet.isorderedsubset [1, 2, 3] [1, 2] = Except.ok false :=
  ⟨rfl, rfl, List.nil_sublist _, List.nil_sublist _, rfl, rfl, rfl⟩

/-- C6: the claim says `pop(i)` raises `IndexError` for an out-of-range index
on either variant.  `OrderedSet.pop` does, but `StableSet.pop` raises the
uncaught `StopIteration` for an index past the end and `ValueError` for a
negative index other than `-1` (its docstring promises `IndexError`); the
empty-set `KeyError` and the removal behavior at a valid index are as
claimed. -/
theorem stableset_pop_wrong_errors :
    StableSet.pop [1, 2] 5 = Except.error PyErr.stopIteration ∧
    StableSet.pop [1, 2, 3] (-2) = Except.error PyErr.valueError ∧
    StableSet.pop [] (-1) = Except.error PyErr.keyError ∧
    OrderedSet.pop ⟨[1, 2], [(1, 0), (2, 1)]⟩ 5 = Except.error PyErr.indexError ∧
    OrderedSet.pop ⟨[], []⟩ 0 = Except.error PyErr.keyError ∧
    OrderedSet.pop ⟨[1, 2], [(1, 0), (2, 1)]⟩ 0 =
      Except.ok (1, ⟨[2], [(2, 1)]⟩) ∧
    StableSet.pop [1, 2, 3] 1 = Except.ok (2, [1, 3]) :=
  ⟨rfl, rfl, rfl, rfl, rfl, rfl, rfl⟩

/-- C3: starting from any state satisfying the documented position-map
invariant, any finite sequence of `add` and `remove` (discard) operations
preserves it, so every retained element `x` satisfies
`sequence[index_of(x)] == x`; moreover discarding an absent element is a
no-op and discarding a present element decrements the recorded position of
every element recorded after it. -/
theorem add_remove_preserve_invariant (st : OSet) (ops : List Op)
    (h : OSValid st) :
    OSValid (applyOps st ops) ∧
    (∀ x, x ∈ (applyOps st ops).items →
      ∃ i, dlookup x (applyOps st ops).map = some i ∧
        (applyOps st ops).items.get? i = some x) ∧
    (∀ k, dlookup k st.map = none → OrderedSet.discard st k = st) ∧
    (∀ k i k' j, dlookup k st.map = some i → dlookup k' st.map = some j →
      i < j → dlookup k' (OrderedSet.discard st k).map = some (j - 1)) := by
  have hv := OSValid_applyOps h ops
  refine ⟨hv, ?_, ?_, ?_⟩
  · intro x hx
    obtain ⟨n, hn⟩ := List.mem_iff_get?.mp hx
    exact ⟨n, (hv.2 x n).mpr hn, hn⟩
  · intro k hk
    exact discard_of_none hk
  · intro k i k' j hk hk' hij
    have hkk' : k' ≠ k := by
      intro he
      subst he
      rw [hk] at hk'
      injection hk' with he2
      omega
    rw [discard_map_of_some hk, dlookup_dshift, dlookup_derase_ne hkk', hk']
    simp only [Option.map_some']
    rw [if_pos (by omega)]

/-- Witness for C3 at the valid state `OrderedSet([1, 2])` and the operation
sequence `add 3; remove 1`. -/
theorem add_remove_preserve_invariant_witness :
    OSValid (applyOps ⟨[1, 2], [(1, 0), (2, 1)]⟩ [Op.add 3, Op.remove 1]) ∧
    (∀ x, x ∈ (applyOps ⟨[1, 2], [(1, 0), (2, 1)]⟩
        [Op.add 3, Op.remove 1]).items →
      ∃ i, dlookup x (applyOps ⟨[1, 2], [(1, 0), (2, 1)]⟩
          [Op.add 3, Op.remove 1]).map = some i ∧
        (applyOps ⟨[1, 2], [(1, 0), (2, 1)]⟩
          [Op.add 3, Op.remove 1]).items.get? i = some x) ∧
    (∀ k, dlookup k (OSet.mk [1, 2] [(1, 0), (2, 1)]).map = none →
      OrderedSet.discard ⟨[1, 2], [(1, 0), (2, 1)]⟩ k =
        ⟨[1, 2], [(1, 0), (2, 1)]⟩) ∧
    (∀ k i k' j, dlookup k (OSet.mk [1, 2] [(1, 0), (2, 1)]).map = some i →
      dlookup k' (OSet.mk [1, 2] [(1, 0), (2, 1)]).map = some j → i < j →
      dlookup k' (OrderedSet.discard ⟨[1, 2], [(1, 0), (2, 1)]⟩ k).map =
        some (j - 1)) :=
  add_remove_preserve_invariant _ _ (canonical_valid (by decide))

/-- C4 counterexample: the claim says `update(source)` returns the position of
the last element processed for every container.  On `StableSet([1, 2])`,
`update([1])` returns `len - 1 = 1`, while the position of the last processed
element `1` is `0`. -/
theorem stableset_update_return_counterexample :
    StableSet.update [1, 2] (some [1]) = Except.ok (1, [1, 2]) ∧
    StableSet.index [1, 2] 1 = Except.ok 0 :=
  ⟨rfl, rfl⟩

/-- C4 (amended): both variants add every element of the source in order with
duplicates collapsing to the first/existing occurrence and raise `ValueError`
on a non-iterable source; `OrderedSet.update` returns the current position of
the last element processed, while `StableSet.update` returns `len - 1`, the
index of the last element of the resulting container; the `{1,2,3}` /
`[3,1,5,1,4]` scenario yields order `[1,2,3,5,4]` and return value `4` on
both variants. -/
theorem update_behavior (s : List Nat) (st : OSet) (l : List Nat)
    (h : OSValid st) (hl : l ≠ []) :
    StableSet.update s none = Except.error PyErr.valueError ∧
    OrderedSet.update st none = Except.error PyErr.valueError ∧
    StableSet.update s (some l) =
      Except.ok ((l.foldl insKey s).length - 1, l.foldl insKey s) ∧
    (∃ i st2, OrderedSet.update st (some l) = Except.ok (i, st2) ∧
      st2.items = l.foldl insKey st.items ∧
      dlookup (l.getLast hl) st2.map = some i ∧
      st2.items.get? i = some (l.getLast hl)) ∧
    StableSet.update [1, 2, 3] (some [3, 1, 5, 1, 4]) =
      Except.ok (4, [1, 2, 3, 5, 4]) ∧
    OrderedSet.update ⟨[1, 2, 3], [(1, 0), (2, 1), (3, 2)]⟩
        (some [3, 1, 5, 1, 4]) =
      Except.ok (4, ⟨[1, 2, 3, 5, 4],
        [(1, 0), (2, 1), (3, 2), (5, 3), (4, 4)]⟩) := by
  refine ⟨rfl, rfl, ?_, ?_, rfl, rfl⟩
  · show Except.ok (((fromkeys l).foldl insKey s).length - 1,
        (fromkeys l).foldl insKey s) =
      Except.ok ((l.foldl insKey s).length - 1, l.foldl insKey s)
    rw [foldl_insKey_fromkeys]
  · set p := l.foldl (fun p x => OrderedSet.add p.2 x) (0, st) with hp
    refine ⟨p.1, p.2, ?_, ?_, ?_, ?_⟩
    · unfold OrderedSet.update
      rfl
    · rw [hp, update_snd_eq, foldl_add_items l h]
    · rw [hp]
      exact update_fst_last l hl st 0
    · have hv2 : OSValid p.2 := by
        rw [hp, update_snd_eq]
        exact OSValid_foldl_add l h
      have := update_fst_last l hl st 0
      rw [← hp] at this
      exact (hv2.2 _ _).mp this

/-- Witness for C4 (amended) at `StableSet([1, 2, 3])`,
`OrderedSet([1, 2, 3])` and source `[3, 1, 5, 1, 4]`. -/
theorem update_behavior_witness :
    StableSet.update [1, 2, 3] none = Except.error PyErr.valueError ∧
    OrderedSet.update ⟨[1, 2, 3], [(1, 0), (2, 1), (3, 2)]⟩ none =
      Except.error PyErr.valueError ∧
    StableSet.update [1, 2, 3] (some [3, 1, 5, 1, 4]) =
      Except.ok (([3, 1, 5, 1, 4].foldl insKey [1, 2, 3]).length - 1,
        [3, 1, 5, 1, 4].foldl insKey [1, 2, 3]) ∧
    (∃ i st2, OrderedSet.update ⟨[1, 2, 3], [(1, 0), (2, 1), (3, 2)]⟩
        (some [3, 1, 5, 1, 4]) = Except.ok (i, st2) ∧
      st2.items = [3, 1, 5, 1, 4].foldl insKey
        (OSet.mk [1, 2, 3] [(1, 0), (2, 1), (3, 2)]).items ∧
      dlookup ([3, 1, 5, 1, 4].getLast (by decide)) st2.map = some i ∧
      st2.items.get? i = some ([3, 1, 5, 1, 4].getLast (by decide))) ∧
    StableSet.update [1, 2, 3] (some [3, 1, 5, 1, 4]) =
      Except.ok (4, [1, 2, 3, 5, 4]) ∧
    OrderedSet.update ⟨[1, 2, 3], [(1, 0), (2, 1), (3, 2)]⟩
        (some [3, 1, 5, 1, 4]) =
      Except.ok (4, ⟨[1, 2, 3, 5, 4],
        [(1, 0), (2, 1), (3, 2), (5, 3), (4, 4)]⟩) :=
  update_behavior [1, 2, 3] ⟨[1, 2, 3], [(1, 0), (2, 1), (3, 2)]⟩
    [3, 1, 5, 1, 4] (canonical_valid (by decide)) (by decide)

/-- C7: `symmetric_difference` keeps exactly the elements lying in exactly one
operand, with the surviving elements of `self` first in `self` order followed
by the surviving elements of `other` in `other` order. -/
theorem symmetric_difference_claim (A B : List Nat)
    (hA : A.Nodup) (hB : B.Nodup) :
    StableSet.symmetric_difference A B =
      A.filter (fun x => decide (x ∉ B)) ++
        B.filter (fun x => decide (x ∉ A)) ∧
    (∀ x, x ∈ StableSet.symmetric_difference A B ↔
      ((x ∈ A ∧ x ∉ B) ∨ (x ∈ B ∧ x ∉ A))) := by
  have he := symmetric_difference_eq hA hB
  refine ⟨he, ?_⟩
  intro x
  rw [he, List.mem_append, List.mem_filter, List.mem_filter,
    decide_eq_true_eq, decide_eq_true_eq]

/-- Witness for C7 at the documented scenario `[1,4,3,5,7]` vs `[9,7,1,3,2]`,
whose symmetric difference is `[4,5,9,2]`. -/
theorem symmetric_difference_claim_witness :
    StableSet.symmetric_difference [1, 4, 3, 5, 7] [9, 7, 1, 3, 2] =
      [1, 4, 3, 5, 7].filter (fun x => decide (x ∉ [9, 7, 1, 3, 2])) ++
        [9, 7, 1, 3, 2].filter (fun x => decide (x ∉ [1, 4, 3, 5, 7])) ∧
    StableSet.symmetric_difference [1, 4, 3, 5, 7] [9, 7, 1, 3, 2] =
      [4, 5, 9, 2] :=
  ⟨(symmetric_difference_claim [1, 4, 3, 5, 7] [9, 7, 1, 3, 2]
      (by decide) (by decide)).1,
    by decide⟩

/-- C8: `A.union(B).union(C)` and `A.union(B, C)` are equal as ordered
containers, and both equal the concatenation of `A`, `B`, `C` in argument
order deduplicated on first occurrence. -/
theorem union_assoc_claim (A B C : List Nat) :
    StableSet.union (StableSet.union A [B]) [C] = StableSet.union A [B, C] ∧
    StableSet.union A [B, C] = fromkeys (A ++ B ++ C) := by
  have h2 : StableSet.union A [B, C] = fromkeys (A ++ B ++ C) := by
    unfold StableSet.union
    congr 1
    simp [List.append_assoc]
  refine ⟨?_, h2⟩
  rw [union_pair, union_pair, h2, fromkeys_append_fromkeys]

/-! ### Helper lemmas for copy and pickling -/

theorem osList_canonical {st : OSet} (hc : OSCanonical st) :
    OrderedSet.osList st = st.items := by
  unfold OrderedSet.osList
  rw [hc.2]
  exact keys_posPairs st.items 0

theorem map_length_canonical {st : OSet} (hc : OSCanonical st) :
    st.map.length = st.items.length := by
  have := congrArg List.length (osList_canonical hc)
  simpa [OrderedSet.osList] using this

theorem init_eq_of_canonical {st : OSet} (hc : OSCanonical st) :
    OrderedSet.init (some st.items) = st := by
  obtain ⟨h1, h2⟩ := init_canonical st.items
  have hitems : (OrderedSet.init (some st.items)).items = st.items := by
    rw [h2, fromkeys_eq_self hc.1]
  have hmap : (OrderedSet.init (some st.items)).map = st.map := by
    rw [h1.2, hitems, hc.2]
  have heta : OrderedSet.init (some st.items) =
      ⟨(OrderedSet.init (some st.items)).items,
        (OrderedSet.init (some st.items)).map⟩ := rfl
  rw [heta, hitems, hmap]

theorem stableset_init_eq {s : List Nat} (hs : s.Nodup) :
    StableSet.init (some s) = s := by
  show (if s.isEmpty = true then ([] : List Nat) else fromkeys s) = s
  by_cases hnil : s = []
  · subst hnil
    rfl
  · rw [if_neg (by simpa [List.isEmpty_iff] using hnil)]
    exact fromkeys_eq_self hs

/-- C9: the pickle snapshot round trip restores an order-equal container for
either variant, and the empty container is captured as the distinguishable
empty marker. -/
theorem pickle_roundtrip (s : List Nat) (st : OSet)
    (hs : s.Nodup) (hc : OSCanonical st) :
    StableSet.setstate (StableSet.getstate s) = s ∧
    (StableSet.getstate s = PickleState.emptyMarker ↔ s = []) ∧
    OrderedSet.setstate (OrderedSet.getstate st) = st ∧
    (OrderedSet.getstate st = PickleState.emptyMarker ↔ st.items = []) := by
  have hmaplen := map_length_canonical hc
  by_cases hnil : s = []
  all_goals by_cases honil : st.items = []
  all_goals refine ⟨?_, ?_, ?_, ?_⟩
  all_goals first
  | -- StableSet round trip
    (unfold StableSet.getstate
     by_cases h0 : s.length = 0
     · have : s = [] := List.length_eq_zero.mp h0
       rw [if_pos h0, this]
       rfl
     · rw [if_neg h0]
       exact stableset_init_eq hs)
  | -- StableSet marker characterization
    (unfold StableSet.getstate
     constructor
     · intro hmark
       by_contra hne
       rw [if_neg (by simpa [List.length_eq_zero] using hne)] at hmark
       exact PickleState.noConfusion hmark
     · intro he
       rw [if_pos (by simp [he])])
  | -- OrderedSet round trip
    (unfold OrderedSet.getstate
     by_cases h0 : st.map.length = 0
     · have hitems0 : st.items = [] := by
         rw [hmaplen] at h0
         exact List.length_eq_zero.mp h0
       rw [if_pos h0]
       show OrderedSet.init (some []) = st
       rw [← hitems0]
       exact init_eq_of_canonical hc
     · rw [if_neg h0]
       show OrderedSet.init (some (OrderedSet.osList st)) = st
       rw [osList_canonical hc]
       exact init_eq_of_canonical hc)
  | -- OrderedSet marker characterization
    (unfold OrderedSet.getstate
     constructor
     · intro hmark
       by_contra hne
       have : st.map.length ≠ 0 := by
         rw [hmaplen]
         simpa [List.length_eq_zero] using hne
       rw [if_neg this] at hmark
       exact PickleState.noConfusion hmark
     · intro he
       rw [if_pos (by rw [hmaplen, he]; rfl)])

/-- Witness for C9 at `StableSet([1, 2])` and `OrderedSet([1, 2])`. -/
theorem pickle_roundtrip_witness :
    StableSet.setstate (StableSet.getstate [1, 2]) = [1, 2] ∧
    (StableSet.getstate [1, 2] = PickleState.emptyMarker ↔
      ([1, 2] : List Nat) = []) ∧
    OrderedSet.setstate (OrderedSet.getstate ⟨[1, 2], [(1, 0), (2, 1)]⟩) =
      ⟨[1, 2], [(1, 0), (2, 1)]⟩ ∧
    (OrderedSet.getstate ⟨[1, 2], [(1, 0), (2, 1)]⟩ =
        PickleState.emptyMarker ↔
      (OSet.mk [1, 2] [(1, 0), (2, 1)]).items = []) :=
  pickle_roundtrip [1, 2] ⟨[1, 2], [(1, 0), (2, 1)]⟩ (by decide) (by decide)

/-- C10: `copy` returns a container with exactly the same elements in the same
order for both variants (object identity and dynamic-class dispatch are not
representable in this embedding; the original is unchanged since the
operations are pure functions of the state). -/
theorem copy_claim (s : List Nat) (st : OSet)
    (hs : s.Nodup) (hc : OSCanonical st) :
    StableSet.copy s = s ∧ OrderedSet.copy st = st := by
  constructor
  · exact stableset_init_eq hs
  · unfold OrderedSet.copy
    rw [osList_canonical hc]
    exact init_eq_of_canonical hc

/-- Witness for C10 at `StableSet([3, 1, 2])` and `OrderedSet([3, 1, 2])`. -/
theorem copy_claim_witness :
    StableSet.copy [3, 1, 2] = [3, 1, 2] ∧
    OrderedSet.copy ⟨[3, 1, 2], [(3, 0), (1, 1), (2, 2)]⟩ =
      ⟨[3, 1, 2], [(3, 0), (1, 1), (2, 2)]⟩ :=
  copy_claim [3, 1, 2] ⟨[3, 1, 2], [(3, 0), (1, 1), (2, 2)]⟩
    (by decide) (by decide)

end OrderedSetSpec
